import Mathlib

/-!
Verification of the Mandelbrot path explorer core against its specification.

The source is two Rust files:
  * `src/src/main.rs` — viewport-parameterized renderer (spectrum colors),
    coordinate mappers, orbit tracer, and the zoom handler.
  * `src/mandelbrot-explorer/src/main.rs` — fixed-viewport renderer with the
    linear color scheme and the same escape-time loop and orbit tracer.

Shallow embedding conventions: Rust `f64`/`f32` arithmetic is modelled over ℚ
(exact rationals); `usize`/`u32` counters are ℕ.  Rust casts that truncate
(`as u8`, `as u32`) are modelled by truncation toward zero with saturation,
matching Rust's saturating float-to-int cast semantics.  Loops are modelled by
fuel recursion where the fuel is the remaining iteration budget, which is
exact here because every loop has the static bound `max_iter`.
-/

namespace MandelbrotCore

/-- `max_iter = 100`, the iteration cap shared by the renderer
(`src/src/main.rs` line 134, `src/mandelbrot-explorer/src/main.rs` line 89)
and the tracer (lines 184 and 127 respectively). -/
def maxIter : ℕ := 100

/-- Result of the escape-time evaluation of one plane point: either the point
escaped after `n` completed update steps, or it stayed bounded for all
`maxIter` checks.  In the source this is the final value of `iter` together
with the `iter == max_iter` test on it. -/
inductive IterationResult where
  | bounded : IterationResult
  | escaped (n : ℕ) : IterationResult
  deriving DecidableEq

/-- `z.re^2 + z.im^2`, the squared magnitude tested against `4.0`
(`zx * zx + zy * zy` in the source). -/
def normSq (z : ℚ × ℚ) : ℚ := z.1 * z.1 + z.2 * z.2

/-- One update of the escape-time recurrence, from the loop body
`let tmp = zx * zx - zy * zy + cx; zy = 2.0 * zx * zy + cy; zx = tmp;`
(`src/src/main.rs` lines 142-144). -/
def step (c z : ℚ × ℚ) : ℚ × ℚ :=
  (z.1 * z.1 - z.2 * z.2 + c.1, 2 * z.1 * z.2 + c.2)

/-- The `k`-th iterate of the recurrence started at `z = (0,0)`: the
mathematical orbit underlying both the evaluator and the tracer. -/
def orbitAt (c : ℚ × ℚ) : ℕ → ℚ × ℚ
  | 0 => (0, 0)
  | k + 1 => step c (orbitAt c k)

/-- The escape-time `while` loop of `render_mandelbrot`
(`src/src/main.rs` lines 141-146):
`while zx*zx + zy*zy < 4.0 && iter < max_iter { ...update...; iter += 1 }`.
Returns the final value of `iter`.  `fuel` is the remaining budget
`maxIter - iter`; supplied as `maxIter` at the initial `iter = 0`, it never
runs out before the guard `iter < maxIter` fails. -/
def mandelLoop (c : ℚ × ℚ) : ℚ × ℚ → ℕ → ℕ → ℕ
  | _, iter, 0 => iter
  | z, iter, fuel + 1 =>
    if normSq z < 4 ∧ iter < maxIter then
      mandelLoop c (step c z) (iter + 1) fuel
    else
      iter

/-- The escape-time evaluator: runs the loop from `z = (0,0)`, `iter = 0` and
classifies the final count exactly as the color branch does
(`iter == max_iter` ⇒ bounded, otherwise escaped with count `iter`;
`src/src/main.rs` lines 138-147). -/
def evaluate (c : ℚ × ℚ) : IterationResult :=
  let n := mandelLoop c (0, 0) 0 maxIter
  if n = maxIter then .bounded else .escaped n

/-- `pixel_to_mandelbrot` (`src/src/main.rs` lines 165-171):
`fx = x/width; fy = y/height; (center.0 + (fx - 0.5)*scale,
center.1 + (fy - 0.5)*scale)`. -/
def pixel_to_mandelbrot (x y width height : ℕ) (center : ℚ × ℚ) (scale : ℚ) :
    ℚ × ℚ :=
  let fx : ℚ := (x : ℚ) / (width : ℚ)
  let fy : ℚ := (y : ℚ) / (height : ℚ)
  (center.1 + (fx - 1/2) * scale, center.2 + (fy - 1/2) * scale)

/-- `mandelbrot_to_pixel` (`src/src/main.rs` lines 173-177):
`(((zx - center.0)/scale + 0.5) * width, ((zy - center.1)/scale + 0.5) * height)`
(the source casts the result to `f32` for drawing; the value itself is modelled
exactly). -/
def mandelbrot_to_pixel (zx zy : ℚ) (width height : ℕ) (center : ℚ × ℚ)
    (scale : ℚ) : ℚ × ℚ :=
  (((zx - center.1) / scale + 1/2) * (width : ℚ),
   ((zy - center.2) / scale + 1/2) * (height : ℚ))

/-- Truncation toward zero, the rounding of Rust's float `as` integer casts. -/
def qtrunc (q : ℚ) : ℤ := if 0 ≤ q then ⌊q⌋ else ⌈q⌉

/-- Rust saturating cast of a float to `u8`: truncate toward zero, clamp to
`[0, 255]`. -/
def castU8 (q : ℚ) : ℕ := min 255 (qtrunc q).toNat

/-- Rust rounding `.round()`: round half away from zero. -/
def qroundAway (q : ℚ) : ℤ := if 0 ≤ q then ⌊q + 1/2⌋ else -⌊-q + 1/2⌋

/-- Rust `.round() as u8`: round half away from zero, then saturating cast. -/
def roundU8 (q : ℚ) : ℕ := min 255 (qroundAway q).toNat

/-- Rust float remainder `a % b` (sign of the dividend):
`a - b * trunc(a / b)`. -/
def qrem (a b : ℚ) : ℚ := a - b * (qtrunc (a / b) : ℚ)

/-- `hsv_to_rgb` (`src/src/main.rs` lines 197-214), sector decomposition on
`h as u32` (saturating cast: negative hues clamp to 0) with each channel
`((component + m) * 255.0).round() as u8`. -/
def hsv_to_rgb (h s v : ℚ) : ℕ × ℕ × ℕ :=
  let c := v * s
  let x := c * (1 - |qrem (h / 60) 2 - 1|)
  let m := v - c
  let hn := (qtrunc h).toNat
  let rgb1 : ℚ × ℚ × ℚ :=
    if hn ≤ 59 then (c, x, 0)
    else if hn ≤ 119 then (x, c, 0)
    else if hn ≤ 179 then (0, c, x)
    else if hn ≤ 239 then (0, x, c)
    else if hn ≤ 299 then (x, 0, c)
    else if hn ≤ 359 then (c, 0, x)
    else (0, 0, 0)
  (roundU8 ((rgb1.1 + m) * 255), roundU8 ((rgb1.2.1 + m) * 255),
   roundU8 ((rgb1.2.2 + m) * 255))

/-- The color branch of the viewport-parameterized `render_mandelbrot`
(`src/src/main.rs` lines 147-155): `iter == max_iter` gives black, otherwise
the spectrum color `hsv_to_rgb((1 - iter/max_iter) * 360, 1, 1)`. -/
def colorSpectrum : IterationResult → ℕ × ℕ × ℕ
  | .bounded => (0, 0, 0)
  | .escaped n => hsv_to_rgb ((1 - (n : ℚ) / (maxIter : ℚ)) * 360) 1 1

/-- The color branch of the fixed-viewport `render_mandelbrot`
(`src/mandelbrot-explorer/src/main.rs` lines 105-110): black when bounded,
otherwise `(c, 0, 255 - c)` with `c = (255.0 * iter / max_iter) as u8`. -/
def colorLinear : IterationResult → ℕ × ℕ × ℕ
  | .bounded => (0, 0, 0)
  | .escaped n =>
    let c := castU8 (255 * (n : ℚ) / (maxIter : ℚ))
    (c, 0, 255 - c)

/-- `render_mandelbrot` (`src/src/main.rs` lines 132-163): the nested
`for y in 0..height { for x in 0..width { ... pixels.push(color) } }` loop,
each pixel mapped through `pixel_to_mandelbrot`, the escape-time loop, and the
spectrum color branch.  The pushed pixels form this row-major flat list. -/
def render_mandelbrot (width height : ℕ) (center : ℚ × ℚ) (scale : ℚ) :
    List (ℕ × ℕ × ℕ) :=
  (List.range height).flatMap fun y =>
    (List.range width).map fun x =>
      colorSpectrum (evaluate (pixel_to_mandelbrot x y width height center scale))

/-- The orbit-recording loop of `mandelbrot_path` (`src/src/main.rs` lines
182-193): `for _ in 0..max_iter { path.push(z); if normSq z >= 4 break;
update }`, with `fuel` the remaining trip budget. -/
def pathLoop (c : ℚ × ℚ) : ℚ × ℚ → ℕ → List (ℚ × ℚ)
  | _, 0 => []
  | z, fuel + 1 =>
    z :: (if 4 ≤ normSq z then [] else pathLoop c (step c z) fuel)

/-- The orbit tracer for a plane point: the path-recording loop started at
`z = (0,0)` with the `0..max_iter` trip budget (`src/src/main.rs` lines
179-195, after the pixel has been mapped to the plane). -/
def trace (c : ℚ × ℚ) : List (ℚ × ℚ) := pathLoop c (0, 0) maxIter

/-- `mandelbrot_path` (`src/src/main.rs` lines 179-195): maps the clicked
pixel to the plane and records its orbit. -/
def mandelbrot_path (px py width height : ℕ) (center : ℚ × ℚ) (scale : ℚ) :
    List (ℚ × ℚ) :=
  trace (pixel_to_mandelbrot px py width height center scale)

/-- The zoom transform from `MandelbrotApp::update` (`src/src/main.rs` lines
60-76): plane point under the cursor, `zoom_factor = 0.8` (`= 4/5`) for
`scroll > 0` else `1.25` (`= 5/4`), `new_scale = scale * zoom_factor`,
`new_center = (cx, cy) - (fractional_pixel - 0.5) * new_scale` component-wise.
In the source the image is square, so `width = height = side`; the two
dimension arguments occupy exactly the two `side` roles of the source
(`fx = px / side`, `fy = py / side`).  Returns the new `(center, scale)`. -/
def zoom (center : ℚ × ℚ) (scale : ℚ) (width height px py : ℕ)
    (scroll : ℚ) : (ℚ × ℚ) × ℚ :=
  let p := pixel_to_mandelbrot px py width height center scale
  let zoom_factor : ℚ := if 0 < scroll then 4/5 else 5/4
  let new_scale := scale * zoom_factor
  let fx : ℚ := (px : ℚ) / (width : ℚ)
  let fy : ℚ := (py : ℚ) / (height : ℚ)
  ((p.1 - (fx - 1/2) * new_scale, p.2 - (fy - 1/2) * new_scale), new_scale)

end MandelbrotCore

namespace MandelbrotCore

/-! ### Loop characterization lemmas -/

lemma mandelLoop_zero_fuel (c z : ℚ × ℚ) (iter : ℕ) :
    mandelLoop c z iter 0 = iter := rfl

lemma mandelLoop_succ_fuel (c z : ℚ × ℚ) (iter fuel : ℕ) :
    mandelLoop c z iter (fuel + 1) =
      if normSq z < 4 ∧ iter < maxIter then
        mandelLoop c (step c z) (iter + 1) fuel
      else iter := rfl

lemma mandelLoop_ge (c : ℚ × ℚ) :
    ∀ (fuel : ℕ) (z : ℚ × ℚ) (iter : ℕ), iter ≤ mandelLoop c z iter fuel := by
  intro fuel
  induction fuel with
  | zero => intro z iter; simp [mandelLoop_zero_fuel]
  | succ fuel ih =>
    intro z iter
    rw [mandelLoop_succ_fuel]
    split
    · exact le_trans (Nat.le_succ iter) (ih (step c z) (iter + 1))
    · exact le_refl iter

lemma orbitAt_zero (c : ℚ × ℚ) : orbitAt c 0 = (0, 0) := rfl

lemma orbitAt_succ (c : ℚ × ℚ) (k : ℕ) :
    orbitAt c (k + 1) = step c (orbitAt c k) := rfl

/-- Running the escape-time loop from iterate `iter` with the exact remaining
budget either exhausts the budget (all `maxIter` checks passed) or stops at
the first out-of-bound iterate. -/
lemma mandelLoop_spec (c : ℚ × ℚ) :
    ∀ (fuel iter : ℕ), iter + fuel = maxIter →
      (∀ k, k < iter → normSq (orbitAt c k) < 4) →
      (mandelLoop c (orbitAt c iter) iter fuel = maxIter ∧
        ∀ k, k < maxIter → normSq (orbitAt c k) < 4) ∨
      (mandelLoop c (orbitAt c iter) iter fuel < maxIter ∧
        4 ≤ normSq (orbitAt c (mandelLoop c (orbitAt c iter) iter fuel)) ∧
        ∀ k, k < mandelLoop c (orbitAt c iter) iter fuel →
          normSq (orbitAt c k) < 4) := by
  intro fuel
  induction fuel with
  | zero =>
    intro iter hsum hsmall
    left
    have hiter : iter = maxIter := by omega
    exact ⟨by rw [mandelLoop_zero_fuel, hiter], fun k hk => hsmall k (by omega)⟩
  | succ fuel ih =>
    intro iter hsum hsmall
    have hiter : iter < maxIter := by omega
    by_cases hesc : normSq (orbitAt c iter) < 4
    · have hunf : mandelLoop c (orbitAt c iter) iter (fuel + 1) =
          mandelLoop c (orbitAt c (iter + 1)) (iter + 1) fuel := by
        rw [mandelLoop_succ_fuel, if_pos ⟨hesc, hiter⟩, orbitAt_succ]
      rw [hunf]
      refine ih (iter + 1) (by omega) ?_
      intro k hk
      rcases Nat.lt_succ_iff_lt_or_eq.mp hk with h | h
      · exact hsmall k h
      · rw [h]; exact hesc
    · right
      have hunf : mandelLoop c (orbitAt c iter) iter (fuel + 1) = iter := by
        rw [mandelLoop_succ_fuel, if_neg]
        intro hand
        exact hesc hand.1
      rw [hunf]
      exact ⟨hiter, le_of_not_lt hesc, hsmall⟩

lemma evaluate_eq (c : ℚ × ℚ) :
    evaluate c =
      if mandelLoop c (0, 0) 0 maxIter = maxIter then .bounded
      else .escaped (mandelLoop c (0, 0) 0 maxIter) := rfl

lemma mandelLoop_top_spec (c : ℚ × ℚ) :
    (mandelLoop c (0, 0) 0 maxIter = maxIter ∧
      ∀ k, k < maxIter → normSq (orbitAt c k) < 4) ∨
    (mandelLoop c (0, 0) 0 maxIter < maxIter ∧
      4 ≤ normSq (orbitAt c (mandelLoop c (0, 0) 0 maxIter)) ∧
      ∀ k, k < mandelLoop c (0, 0) 0 maxIter → normSq (orbitAt c k) < 4) := by
  have h := mandelLoop_spec c maxIter 0 (by omega)
    (fun k hk => absurd hk (Nat.not_lt_zero k))
  rwa [orbitAt_zero] at h

/-- The evaluator reports `escaped n` exactly when `n` is the first index
(within the `maxIter` checks) at which the squared magnitude reaches `4`. -/
lemma evaluate_escaped_iff (c : ℚ × ℚ) (n : ℕ) :
    evaluate c = .escaped n ↔
      n < maxIter ∧ 4 ≤ normSq (orbitAt c n) ∧
        ∀ k, k < n → normSq (orbitAt c k) < 4 := by
  rcases mandelLoop_top_spec c with ⟨hr, hall⟩ | ⟨hlt, hge, hmin⟩
  · rw [evaluate_eq, if_pos hr]
    constructor
    · intro h; exact absurd h (by simp)
    · rintro ⟨hn, hge, -⟩
      exact absurd hge (not_le.mpr (hall n hn))
  · rw [evaluate_eq, if_neg (by omega)]
    constructor
    · intro h
      have hn : mandelLoop c (0, 0) 0 maxIter = n := by
        injection h
      rw [hn] at hlt hge hmin
      exact ⟨hlt, hge, hmin⟩
    · rintro ⟨hn, hge2, hmin2⟩
      have heq : n = mandelLoop c (0, 0) 0 maxIter := by
        rcases lt_trichotomy n (mandelLoop c (0, 0) 0 maxIter) with h | h | h
        · exact absurd hge2 (not_le.mpr (hmin n h))
        · exact h
        · exact absurd hge (not_le.mpr (hmin2 _ h))
      rw [heq]

/-- The evaluator reports `bounded` exactly when all `maxIter` checks pass. -/
lemma evaluate_bounded_iff (c : ℚ × ℚ) :
    evaluate c = .bounded ↔ ∀ k, k < maxIter → normSq (orbitAt c k) < 4 := by
  rcases mandelLoop_top_spec c with ⟨hr, hall⟩ | ⟨hlt, hge, hmin⟩
  · rw [evaluate_eq, if_pos hr]
    exact ⟨fun _ => hall, fun _ => rfl⟩
  · rw [evaluate_eq, if_neg (by omega)]
    constructor
    · intro h; exact absurd h (by simp)
    · intro hall
      exact absurd hge (not_le.mpr (hall _ hlt))

end MandelbrotCore

namespace MandelbrotCore

/-! ### Tracer lemmas -/

lemma pathLoop_zero_fuel (c z : ℚ × ℚ) : pathLoop c z 0 = [] := rfl

lemma pathLoop_succ_fuel (c z : ℚ × ℚ) (fuel : ℕ) :
    pathLoop c z (fuel + 1) =
      z :: (if 4 ≤ normSq z then [] else pathLoop c (step c z) fuel) := rfl

/-- The recorded path has length `fuel` when the loop result exhausts the
budget, and length `r - iter + 1` when the loop stops at iterate `r`. -/
lemma pathLoop_length_spec (c : ℚ × ℚ) :
    ∀ (fuel iter : ℕ), iter + fuel = maxIter →
      (mandelLoop c (orbitAt c iter) iter fuel = maxIter →
        (pathLoop c (orbitAt c iter) fuel).length = fuel) ∧
      (mandelLoop c (orbitAt c iter) iter fuel < maxIter →
        (pathLoop c (orbitAt c iter) fuel).length =
          mandelLoop c (orbitAt c iter) iter fuel - iter + 1) := by
  intro fuel
  induction fuel with
  | zero =>
    intro iter hsum
    have hiter : iter = maxIter := by omega
    constructor
    · intro _; rw [pathLoop_zero_fuel]; rfl
    · intro hlt
      rw [mandelLoop_zero_fuel] at hlt
      omega
  | succ fuel ih =>
    intro iter hsum
    have hiter : iter < maxIter := by omega
    by_cases hesc : normSq (orbitAt c iter) < 4
    · have hml : mandelLoop c (orbitAt c iter) iter (fuel + 1) =
          mandelLoop c (orbitAt c (iter + 1)) (iter + 1) fuel := by
        rw [mandelLoop_succ_fuel, if_pos ⟨hesc, hiter⟩, orbitAt_succ]
      have hpl : (pathLoop c (orbitAt c iter) (fuel + 1)).length =
          (pathLoop c (orbitAt c (iter + 1)) fuel).length + 1 := by
        rw [pathLoop_succ_fuel, if_neg (not_le.mpr hesc), orbitAt_succ]
        simp
      have hge := mandelLoop_ge c fuel (orbitAt c (iter + 1)) (iter + 1)
      rcases ih (iter + 1) (by omega) with ⟨hfull, hstop⟩
      constructor
      · intro hr
        rw [hml] at hr
        rw [hpl, hfull hr]
      · intro hr
        rw [hml] at hr
        rw [hpl, hml, hstop hr]
        omega
    · have hml : mandelLoop c (orbitAt c iter) iter (fuel + 1) = iter := by
        rw [mandelLoop_succ_fuel, if_neg]
        intro hand
        exact hesc hand.1
      have hpl : pathLoop c (orbitAt c iter) (fuel + 1) = [orbitAt c iter] := by
        rw [pathLoop_succ_fuel, if_pos (le_of_not_lt hesc)]
      constructor
      · intro hr; rw [hml] at hr; omega
      · intro _; rw [hpl, hml]; simp

/-- Every entry of the recorded path is the corresponding orbit iterate. -/
lemma pathLoop_getElem (c : ℚ × ℚ) :
    ∀ (fuel iter k : ℕ), k < (pathLoop c (orbitAt c iter) fuel).length →
      (pathLoop c (orbitAt c iter) fuel)[k]? = some (orbitAt c (iter + k)) := by
  intro fuel
  induction fuel with
  | zero => intro iter k hk; rw [pathLoop_zero_fuel] at hk; simp at hk
  | succ fuel ih =>
    intro iter k hk
    rw [pathLoop_succ_fuel]
    by_cases hesc : 4 ≤ normSq (orbitAt c iter)
    · rw [pathLoop_succ_fuel, if_pos hesc] at hk
      simp at hk
      rw [hk, if_pos hesc]
      simp
    · rw [if_neg hesc, ← orbitAt_succ]
      cases k with
      | zero => simp
      | succ k =>
        rw [List.getElem?_cons_succ]
        rw [pathLoop_succ_fuel, if_neg hesc, ← orbitAt_succ] at hk
        simp only [List.length_cons] at hk
        have hk2 : k < (pathLoop c (orbitAt c (iter + 1)) fuel).length := by
          omega
        have harg : iter + 1 + k = iter + (k + 1) := by omega
        rw [ih (iter + 1) k hk2, harg]

lemma mandelLoop_le (c : ℚ × ℚ) :
    ∀ (fuel : ℕ) (z : ℚ × ℚ) (iter : ℕ),
      mandelLoop c z iter fuel ≤ iter + fuel := by
  intro fuel
  induction fuel with
  | zero => intro z iter; rw [mandelLoop_zero_fuel]; omega
  | succ fuel ih =>
    intro z iter
    rw [mandelLoop_succ_fuel]
    split
    · have := ih (step c z) (iter + 1)
      omega
    · omega

lemma mandelLoop_of_escaped (c : ℚ × ℚ) (n : ℕ)
    (h : evaluate c = .escaped n) :
    mandelLoop c (0, 0) 0 maxIter = n ∧ n < maxIter := by
  rw [evaluate_eq] at h
  by_cases hfull : mandelLoop c (0, 0) 0 maxIter = maxIter
  · rw [if_pos hfull] at h
    exact absurd h (by simp)
  · rw [if_neg hfull] at h
    injection h with h2
    have hle := mandelLoop_le c maxIter (0, 0) 0
    omega

lemma mandelLoop_of_bounded (c : ℚ × ℚ)
    (h : evaluate c = .bounded) :
    mandelLoop c (0, 0) 0 maxIter = maxIter := by
  rw [evaluate_eq] at h
  by_cases hfull : mandelLoop c (0, 0) 0 maxIter = maxIter
  · exact hfull
  · rw [if_neg hfull] at h
    exact absurd h (by simp)

lemma trace_length_escaped (c : ℚ × ℚ) (n : ℕ)
    (h : evaluate c = .escaped n) : (trace c).length = n + 1 := by
  obtain ⟨hr, hlt⟩ := mandelLoop_of_escaped c n h
  have hspec := (pathLoop_length_spec c maxIter 0 (by omega)).2
  rw [orbitAt_zero, hr] at hspec
  have := hspec hlt
  simpa [trace] using this

lemma trace_length_bounded (c : ℚ × ℚ)
    (h : evaluate c = .bounded) : (trace c).length = maxIter := by
  have hr := mandelLoop_of_bounded c h
  have hspec := (pathLoop_length_spec c maxIter 0 (by omega)).1
  rw [orbitAt_zero] at hspec
  simpa [trace] using hspec hr

lemma trace_getElem (c : ℚ × ℚ) (k : ℕ) (hk : k < (trace c).length) :
    (trace c)[k]? = some (orbitAt c k) := by
  have h := pathLoop_getElem c maxIter 0 k
  rw [orbitAt_zero] at h
  simpa [trace] using h (by simpa [trace] using hk)

/-! ### Row-major indexing of ranges -/

lemma flatMap_range_length {α : Type} (g : ℕ → List α) (w : ℕ)
    (hw : ∀ y, (g y).length = w) :
    ∀ n, ((List.range n).flatMap g).length = n * w := by
  intro n
  induction n with
  | zero => simp
  | succ n ih =>
    rw [List.range_succ, List.flatMap_append, List.length_append, ih]
    simp [hw n, Nat.succ_mul]

lemma flatMap_range_getElem {α : Type} (g : ℕ → List α) (w : ℕ)
    (hw : ∀ y, (g y).length = w) :
    ∀ n y x, y < n → x < w →
      ((List.range n).flatMap g)[y * w + x]? = (g y)[x]? := by
  intro n
  induction n with
  | zero => intro y x hy _; exact absurd hy (Nat.not_lt_zero y)
  | succ n ih =>
    intro y x hy hx
    rw [List.range_succ, List.flatMap_append]
    rcases Nat.lt_succ_iff_lt_or_eq.mp hy with h | h
    · rw [List.getElem?_append_left]
      · exact ih y x h hx
      · rw [flatMap_range_length g w hw]
        have h1 : y * w + x < (y + 1) * w := by
          rw [Nat.succ_mul]
          exact Nat.add_lt_add_left hx _
        exact Nat.lt_of_lt_of_le h1 (Nat.mul_le_mul_right w h)
    · subst h
      rw [List.getElem?_append_right]
      · rw [flatMap_range_length g w hw, Nat.add_sub_cancel_left]
        simp
      · rw [flatMap_range_length g w hw]
        exact Nat.le_add_right _ _

end MandelbrotCore

namespace MandelbrotCore

/-! ### Concrete evaluation helpers -/

lemma orbitAt_one (c : ℚ × ℚ) : orbitAt c 1 = (c.1, c.2) := by
  rw [show (1 : ℕ) = 0 + 1 from rfl, orbitAt_succ, orbitAt_zero]
  simp [step]

lemma orbit_origin : ∀ k, orbitAt ((0 : ℚ), (0 : ℚ)) k = (0, 0) := by
  intro k
  induction k with
  | zero => rfl
  | succ k ih => rw [orbitAt_succ, ih]; simp [step]

lemma evaluate_origin : evaluate (0, 0) = .bounded := by
  rw [evaluate_bounded_iff]
  intro k _
  rw [orbit_origin k]
  norm_num [normSq]

lemma evaluate_m52 : evaluate ((-5 : ℚ)/2, 0) = .escaped 1 := by
  rw [evaluate_escaped_iff]
  refine ⟨by norm_num [maxIter], ?_, ?_⟩
  · rw [orbitAt_one]
    norm_num [normSq]
  · intro k hk
    interval_cases k
    rw [orbitAt_zero]
    norm_num [normSq]

lemma pixel_to_mandelbrot_origin :
    pixel_to_mandelbrot 0 0 1 1 (0, 0) 0 = ((0 : ℚ), (0 : ℚ)) := by
  norm_num [pixel_to_mandelbrot]

end MandelbrotCore

namespace MandelbrotCore

/-! ### Claims -/

/-- C1: for every plane point `c`, the escape-time evaluation starts from
`z = (0,0)` and repeatedly applies the recurrence
`z ← (z.re² - z.im² + cx, 2·z.re·z.im + cy)`, testing `z.re² + z.im² ≥ 4` on
the current `z` before each update; it reports `escaped n` with
`0 ≤ n < maxIter` (`n` = number of updates completed before the bound was
first observed exceeded) when the bound is exceeded within the `maxIter = 100`
checks, and reports `bounded` otherwise. -/
theorem c1_escape_time_evaluator (c : ℚ × ℚ) :
    orbitAt c 0 = (0, 0) ∧
    (∀ k, orbitAt c (k + 1) = step c (orbitAt c k)) ∧
    (∀ n, evaluate c = .escaped n ↔
      n < maxIter ∧ 4 ≤ normSq (orbitAt c n) ∧
        ∀ k, k < n → normSq (orbitAt c k) < 4) ∧
    (evaluate c = .bounded ↔ ∀ k, k < maxIter → normSq (orbitAt c k) < 4) :=
  ⟨orbitAt_zero c, orbitAt_succ c, fun n => evaluate_escaped_iff c n,
    evaluate_bounded_iff c⟩

theorem c1_escape_time_evaluator_witness :
    evaluate ((-5 : ℚ)/2, 0) = .escaped 1 ∧
    (1 < maxIter ∧ 4 ≤ normSq (orbitAt ((-5 : ℚ)/2, 0) 1) ∧
      ∀ k, k < 1 → normSq (orbitAt ((-5 : ℚ)/2, 0) k) < 4) := by
  have he := evaluate_m52
  exact ⟨he, ((c1_escape_time_evaluator ((-5 : ℚ)/2, 0)).2.2.1 1).mp he⟩

/-- C2: for every `width ≥ 1`, `height ≥ 1` and every viewport,
`render_mandelbrot` returns a pixel buffer of exactly `width * height` RGB
entries in row-major order, the entry at index `y * width + x` being the
pixel's plane point run through the evaluator and the (spectrum) color
mapper. -/
theorem c2_render_row_major (width height : ℕ) (center : ℚ × ℚ) (scale : ℚ)
    (hw : 1 ≤ width) (hh : 1 ≤ height) :
    (render_mandelbrot width height center scale).length = width * height ∧
    ∀ x y, x < width → y < height →
      (render_mandelbrot width height center scale)[y * width + x]? =
        some (colorSpectrum
          (evaluate (pixel_to_mandelbrot x y width height center scale))) := by
  have hg : ∀ yv : ℕ, ((List.range width).map fun xv =>
      colorSpectrum
        (evaluate (pixel_to_mandelbrot xv yv width height center scale))).length
      = width := by
    intro yv; simp
  constructor
  · rw [render_mandelbrot, flatMap_range_length _ width hg, Nat.mul_comm]
  · intro x y hx hy
    rw [render_mandelbrot, flatMap_range_getElem _ width hg height y x hy hx,
      List.getElem?_map, List.getElem?_range hx]
    rfl

theorem c2_render_row_major_witness :
    (render_mandelbrot 1 1 (0, 0) 0).length = 1 * 1 ∧
    (render_mandelbrot 1 1 (0, 0) 0)[0 * 1 + 0]? =
      some (colorSpectrum (evaluate (pixel_to_mandelbrot 0 0 1 1 (0, 0) 0))) ∧
    (render_mandelbrot 1 1 (0, 0) 0)[0 * 1 + 0]? = some (0, 0, 0) := by
  have h := c2_render_row_major 1 1 (0, 0) 0 (by norm_num) (by norm_num)
  have h2 := h.2 0 0 (by norm_num) (by norm_num)
  refine ⟨h.1, h2, h2.trans ?_⟩
  rw [pixel_to_mandelbrot_origin, evaluate_origin]
  rfl

/-- C3: for every plane point, the orbit tracer and the escape-time evaluator
agree: an `escaped n` evaluation gives a trace of length `n + 1` whose last
element is the first out-of-bound iterate, a `bounded` evaluation gives a
trace of length `maxIter = 100`, and in both cases the trace starts at
`(0,0)` and its entries follow the same recurrence as the evaluator. -/
theorem c3_trace_evaluator_consistency (c : ℚ × ℚ) :
    (∀ n, evaluate c = .escaped n →
      (trace c).length = n + 1 ∧ (trace c)[n]? = some (orbitAt c n) ∧
        4 ≤ normSq (orbitAt c n) ∧ ∀ k, k < n → normSq (orbitAt c k) < 4) ∧
    (evaluate c = .bounded → (trace c).length = maxIter) ∧
    (trace c)[0]? = some (0, 0) ∧
    (∀ k, k < (trace c).length → (trace c)[k]? = some (orbitAt c k)) := by
  have hlen : 0 < (trace c).length := by
    cases h : evaluate c with
    | bounded => rw [trace_length_bounded c h]; norm_num [maxIter]
    | escaped n => rw [trace_length_escaped c n h]; omega
  refine ⟨?_, trace_length_bounded c, ?_, trace_getElem c⟩
  · intro n h
    have hl := trace_length_escaped c n h
    have hchar := (evaluate_escaped_iff c n).mp h
    exact ⟨hl, trace_getElem c n (by omega), hchar.2.1, hchar.2.2⟩
  · rw [trace_getElem c 0 hlen, orbitAt_zero]

theorem c3_trace_evaluator_consistency_witness :
    evaluate ((-5 : ℚ)/2, 0) = .escaped 1 ∧
    (trace ((-5 : ℚ)/2, 0)).length = 1 + 1 ∧
    (trace ((-5 : ℚ)/2, 0))[1]? = some (orbitAt ((-5 : ℚ)/2, 0) 1) ∧
    4 ≤ normSq (orbitAt ((-5 : ℚ)/2, 0) 1) := by
  have he := evaluate_m52
  have h := (c3_trace_evaluator_consistency ((-5 : ℚ)/2, 0)).1 1 he
  exact ⟨he, h.1, h.2.1, h.2.2.1⟩

/-- C4: for every viewport with `scale ≠ 0`, dimensions `≥ 1`, in-bounds
cursor pixel and nonzero scroll, the plane point under the cursor is a fixed
point of the zoom: mapping the cursor through the zoomed viewport gives the
same plane point as through the original viewport (exactly, in the rational
model). -/
theorem c4_zoom_fixed_point (center : ℚ × ℚ) (scale : ℚ)
    (width height px py : ℕ) (scroll : ℚ) (hs : scale ≠ 0)
    (hw : 1 ≤ width) (hh : 1 ≤ height) (hx : px < width) (hy : py < height)
    (hd : scroll ≠ 0) :
    pixel_to_mandelbrot px py width height
        (zoom center scale width height px py scroll).1
        (zoom center scale width height px py scroll).2 =
      pixel_to_mandelbrot px py width height center scale := by
  simp only [zoom, pixel_to_mandelbrot, Prod.mk.injEq]
  constructor <;> ring

theorem c4_zoom_fixed_point_witness :
    (1 : ℚ) ≠ 0 ∧ (0 : ℕ) < 1 ∧ (1 : ℚ) ≠ 0 ∧
    pixel_to_mandelbrot 0 0 1 1 (zoom (0, 0) 1 1 1 0 0 1).1
        (zoom (0, 0) 1 1 1 0 0 1).2 =
      pixel_to_mandelbrot 0 0 1 1 (0, 0) 1 :=
  ⟨by norm_num, by norm_num, by norm_num,
    c4_zoom_fixed_point (0, 0) 1 1 1 0 0 1 (by norm_num) (by norm_num)
      (by norm_num) (by norm_num) (by norm_num) (by norm_num)⟩

/-- C5: for every viewport with `scale ≠ 0`, dimensions `≥ 1` and in-bounds
pixel `(x, y)`, the round-trip `mandelbrot_to_pixel ∘ pixel_to_mandelbrot`
recovers `(x, y)` (exactly, in the rational model). -/
theorem c5_round_trip (center : ℚ × ℚ) (scale : ℚ) (width height x y : ℕ)
    (hs : scale ≠ 0) (hw : 1 ≤ width) (hh : 1 ≤ height)
    (hx : x < width) (hy : y < height) :
    mandelbrot_to_pixel (pixel_to_mandelbrot x y width height center scale).1
        (pixel_to_mandelbrot x y width height center scale).2
        width height center scale = ((x : ℚ), (y : ℚ)) := by
  have hw0 : (width : ℚ) ≠ 0 := Nat.cast_ne_zero.mpr (by omega)
  have hh0 : (height : ℚ) ≠ 0 := Nat.cast_ne_zero.mpr (by omega)
  simp only [pixel_to_mandelbrot, mandelbrot_to_pixel, Prod.mk.injEq]
  constructor <;> field_simp <;> ring

theorem c5_round_trip_witness :
    (1 : ℚ) ≠ 0 ∧ (0 : ℕ) < 1 ∧
    mandelbrot_to_pixel (pixel_to_mandelbrot 0 0 1 1 (0, 0) 1).1
        (pixel_to_mandelbrot 0 0 1 1 (0, 0) 1).2 1 1 (0, 0) 1 =
      ((0 : ℚ), (0 : ℚ)) :=
  ⟨by norm_num, by norm_num,
    c5_round_trip (0, 0) 1 1 1 0 0 (by norm_num) (by norm_num) (by norm_num)
      (by norm_num) (by norm_num)⟩

end MandelbrotCore

namespace MandelbrotCore

/-- For `n < 100`, the Rust cast `(255.0 * n / 100.0) as u8` computes the
floor `255 * n / 100` (natural division), with no saturation. -/
lemma castU8_mul_div (n : ℕ) (hn : n < 100) :
    castU8 (255 * (n : ℚ) / 100) = 255 * n / 100 := by
  have h0 : (0 : ℚ) ≤ 255 * (n : ℚ) / 100 := by positivity
  have hq : 255 * (n : ℚ) / 100 = ((255 * n : ℕ) : ℚ) / ((100 : ℕ) : ℚ) := by
    push_cast
    ring
  rw [castU8, qtrunc, if_pos h0, Int.floor_toNat, hq, Nat.floor_div_nat,
    Nat.floor_natCast]
  refine min_eq_right ?_
  calc 255 * n / 100 ≤ 255 * 99 / 100 :=
        Nat.div_le_div_right (Nat.mul_le_mul_left 255 (by omega))
  _ ≤ 255 := by norm_num

/-- The linear color of an escaped count under the `as u8` truncating cast. -/
lemma colorLinear_escaped (n : ℕ) (hn : n < 100) :
    colorLinear (.escaped n) = (255 * n / 100, 0, 255 - 255 * n / 100) := by
  have hm : ((maxIter : ℕ) : ℚ) = 100 := by norm_num [maxIter]
  show (castU8 (255 * (n : ℚ) / (maxIter : ℚ)), 0,
    255 - castU8 (255 * (n : ℚ) / (maxIter : ℚ))) = _
  rw [hm, castU8_mul_div n hn]

/-- C6 counterexample: the claim predicts channel `c = round(255·n/100)`,
which at `n = 1` is `round(2.55) = 3` and color `(3, 0, 252)`; the code's
truncating cast gives `c = 2` and color `(2, 0, 253)`. -/
theorem c6_linear_color_counterexample :
    colorLinear (.escaped 1) ≠
      ((round ((255 * (1 : ℚ)) / 100)).toNat, 0,
        255 - (round ((255 * (1 : ℚ)) / 100)).toNat) := by
  have hcode : colorLinear (.escaped 1) = (2, 0, 253) := by
    have h := colorLinear_escaped 1 (by norm_num)
    norm_num at h
    exact h
  have hclaim : round ((255 * (1 : ℚ)) / 100) = 3 := by
    rw [round_eq]
    norm_num
  rw [hcode, hclaim]
  decide

/-- C6 (amended): under the linear color scheme, `bounded` yields black, and
`escaped n` (for `0 ≤ n < maxIter`) yields `(c, 0, 255 - c)` where
`c = ⌊255·n / maxIter⌋` (truncating division, as performed by the `as u8`
cast), not `round(255·n / maxIter)`. -/
theorem c6_linear_color_amended :
    colorLinear .bounded = (0, 0, 0) ∧
    ∀ n, n < maxIter →
      colorLinear (.escaped n) = (255 * n / 100, 0, 255 - 255 * n / 100) :=
  ⟨rfl, fun n hn => colorLinear_escaped n (by simpa [maxIter] using hn)⟩

theorem c6_linear_color_witness :
    1 < maxIter ∧
    colorLinear (.escaped 1) = (255 * 1 / 100, 0, 255 - 255 * 1 / 100) :=
  ⟨by norm_num [maxIter],
    c6_linear_color_amended.2 1 (by norm_num [maxIter])⟩

/-- C7: a zoom with scroll `> 0` multiplies the scale by exactly `0.8`
(strictly shrinking a positive scale) and a zoom with scroll `< 0` multiplies
it by exactly `1.25` (strictly growing a positive scale). -/
theorem c7_zoom_scale_factor (center : ℚ × ℚ) (scale : ℚ)
    (width height px py : ℕ) (scroll : ℚ)
    (hx : px < width) (hy : py < height) :
    (0 < scroll →
      (zoom center scale width height px py scroll).2 = scale * (4/5) ∧
      (0 < scale → (zoom center scale width height px py scroll).2 < scale)) ∧
    (scroll < 0 →
      (zoom center scale width height px py scroll).2 = scale * (5/4) ∧
      (0 < scale → scale < (zoom center scale width height px py scroll).2)) := by
  constructor
  · intro hpos
    have h2 : (zoom center scale width height px py scroll).2 = scale * (4/5) := by
      simp only [zoom, if_pos hpos]
    refine ⟨h2, fun hsc => ?_⟩
    rw [h2]
    linarith
  · intro hneg
    have h2 : (zoom center scale width height px py scroll).2 = scale * (5/4) := by
      simp only [zoom, if_neg (not_lt.mpr (le_of_lt hneg))]
    refine ⟨h2, fun hsc => ?_⟩
    rw [h2]
    linarith

theorem c7_zoom_scale_factor_witness :
    ((0 : ℚ) < 1 ∧ (zoom (0, 0) 1 1 1 0 0 1).2 = 1 * (4/5)) ∧
    ((-1 : ℚ) < 0 ∧ (zoom (0, 0) 1 1 1 0 0 (-1)).2 = 1 * (5/4)) := by
  have h1 := c7_zoom_scale_factor (0, 0) 1 1 1 0 0 1 (by norm_num) (by norm_num)
  have h2 := c7_zoom_scale_factor (0, 0) 1 1 1 0 0 (-1) (by norm_num) (by norm_num)
  exact ⟨⟨by norm_num, (h1.1 (by norm_num)).1⟩,
    ⟨by norm_num, (h2.2 (by norm_num)).1⟩⟩

/-- C8: the viewport invariant `scale > 0` is preserved by the zoom: for every
viewport with positive scale and any dimensions, cursor pixel and nonzero
scroll, the new scale is positive. -/
theorem c8_zoom_preserves_positive_scale (center : ℚ × ℚ) (scale : ℚ)
    (width height px py : ℕ) (scroll : ℚ) (hs : 0 < scale) (hd : scroll ≠ 0) :
    0 < (zoom center scale width height px py scroll).2 := by
  simp only [zoom]
  split_ifs
  · exact mul_pos hs (by norm_num)
  · exact mul_pos hs (by norm_num)

theorem c8_zoom_preserves_positive_scale_witness :
    (0 : ℚ) < 1 ∧ (1 : ℚ) ≠ 0 ∧ 0 < (zoom (0, 0) 1 1 1 0 0 1).2 :=
  ⟨by norm_num, by norm_num,
    c8_zoom_preserves_positive_scale (0, 0) 1 1 1 0 0 1 (by norm_num) (by norm_num)⟩

/-- C9 counterexample: called with width `0`, `render_mandelbrot` does not
signal any invalid-input condition — it is a total function that returns the
ordinary (empty) pixel buffer. -/
theorem c9_zero_dimension_counterexample :
    render_mandelbrot 0 1 (0, 0) 1 = [] := by
  simp [render_mandelbrot]

/-- C9 (amended): when `render_mandelbrot` receives `0` for either dimension
it returns an empty pixel buffer (`width * height = 0` entries) instead of
signaling an invalid-input condition; no error result exists in the code (and
the coordinate mapper likewise performs its division totally rather than
signaling). -/
theorem c9_zero_dimension_amended :
    (∀ (height : ℕ) (center : ℚ × ℚ) (scale : ℚ),
      render_mandelbrot 0 height center scale = []) ∧
    (∀ (width : ℕ) (center : ℚ × ℚ) (scale : ℚ),
      render_mandelbrot width 0 center scale = []) := by
  constructor
  · intro height center scale
    refine List.length_eq_zero.mp ?_
    have h0 := flatMap_range_length
      (fun y => (List.range 0).map fun x =>
        colorSpectrum (evaluate (pixel_to_mandelbrot x y 0 height center scale)))
      0 (fun y => by simp) height
    rw [render_mandelbrot, h0]
    ring
  · intro width center scale
    rfl

/-- C10 (implicit): the evaluator never returns `escaped 0` — any escape
count is at least `1`, since the initial `z = (0,0)` has `|z|² = 0 < 4`, so
at least one update is taken; equivalently every escaping trace has length at
least `2`. -/
theorem c10_no_escaped_zero (c : ℚ × ℚ) :
    ∀ n, evaluate c = .escaped n → 1 ≤ n ∧ 2 ≤ (trace c).length := by
  intro n h
  have hchar := (evaluate_escaped_iff c n).mp h
  have hn : 1 ≤ n := by
    rcases Nat.eq_zero_or_pos n with h0 | h1
    · have h4 := hchar.2.1
      rw [h0, orbitAt_zero] at h4
      norm_num [normSq] at h4
    · exact h1
  have hlen := trace_length_escaped c n h
  exact ⟨hn, by omega⟩

theorem c10_no_escaped_zero_witness :
    evaluate ((-5 : ℚ)/2, 0) = .escaped 1 ∧
    1 ≤ 1 ∧ 2 ≤ (trace ((-5 : ℚ)/2, 0)).length := by
  have he := evaluate_m52
  exact ⟨he, c10_no_escaped_zero ((-5 : ℚ)/2, 0) 1 he⟩

end MandelbrotCore
